import Mathlib

/-!
Verification of the `MakeCLI` runtime (`src/prefect/runtimes/make_cli.py`).

The module registers user functions as named tasks, optionally chains them in
registration order (`implied_order`), and a `run` command expands the
dependency graph of the requested task names depth-first, submitting edges
(`flow.set_dependencies`) and standalone tasks (`flow.add_task`) to the
external workflow engine before invoking its single execution entry point
(`flow.run`).

The embedding below mirrors the Python source:
  * `Task` models a `FunctionTask` object; `id` is its object identity
    (objects created by successive registrations are distinct), `name` the
    registering function's `__name__`.
  * Python `dict`s become insertion-ordered association lists with
    position-preserving update (`dictInsert`) and first-match lookup
    (`dictGet`), matching CPython 3.7+ dict semantics.
  * The `while to_visit:` loop of the `run` command becomes `innerLoop`,
    structurally recursive on a step-count `fuel`; `innerLoop_isSome` proves
    the canonical fuel `1 + depWeight m.dependencies []` always suffices, so
    the fuelled loop is an exact model of the (terminating) Python loop.
  * Submissions to the external engine are recorded as a chronological list
    of `Event`s; a `KeyError` from `obj.tasks[t_n]` aborts the run with the
    missing name and `Event.executeAll` (i.e. `obj.flow.run()`) is appended
    only on the non-aborting path.
-/

namespace MakeCli

/-- A registered task object: `id` is the Python object identity (fresh per
registration), `name` the `fn.__name__` it was registered under. -/
structure Task where
  id : Nat
  name : String
deriving DecidableEq, Repr

/-- One call to the external engine:
`edges t ups` models `flow.set_dependencies(t, upstream_tasks=ups)`,
`standalone t` models `flow.add_task(t)`, and
`executeAll` models the final `flow.run()`. -/
inductive Event where
  | edges (t : Task) (upstream : List Task)
  | standalone (t : Task)
  | executeAll
deriving DecidableEq, Repr

/-- Python dict lookup `d.get(k)` / `d[k]`: first entry with the key. -/
def dictGet {α β : Type} [DecidableEq α] (k : α) : List (α × β) → Option β
  | [] => none
  | (k', v) :: rest => if k' = k then some v else dictGet k rest

/-- Python dict assignment `d[k] = v`: replaces in place an existing entry
(keeping its position, as CPython dicts do) or appends a new one. -/
def dictInsert {α β : Type} [DecidableEq α] (k : α) (v : β) : List (α × β) → List (α × β)
  | [] => [(k, v)]
  | (k', v') :: rest => if k' = k then (k, v) :: rest else (k', v') :: dictInsert k v rest

/-- The registry of a `MakeCLI` instance: `dependencies` maps each task
object to its list of upstream names, `tasks` maps names to task objects,
`task_order` records registration order, `nextId` generates object
identities. -/
structure MakeCLI where
  dependencies : List (Task × List String)
  tasks : List (String × Task)
  task_order : List String
  implied_order : Bool
  nextId : Nat
deriving DecidableEq, Repr

/-- `MakeCLI.__init__`: empty registry. -/
def MakeCLI.init (implied_order : Bool) : MakeCLI :=
  { dependencies := [], tasks := [], task_order := [], implied_order := implied_order,
    nextId := 0 }

/-- The `@make.task` decorator: wraps the function in a fresh task object,
records `depends` (or `[]`) as its dependency list, appends the previously
registered name when `implied_order` is set and some task exists, then
stores the task under `fn.__name__` and appends that name to `task_order`. -/
def MakeCLI.task (m : MakeCLI) (fnName : String) (depends : Option (List String)) :
    MakeCLI × Task :=
  let t : Task := ⟨m.nextId, fnName⟩
  let deps0 : List String := depends.getD []
  let deps : List String :=
    if m.implied_order then
      match m.task_order.getLast? with
      | some prev => deps0 ++ [prev]
      | none => deps0
    else deps0
  ({ m with
      dependencies := dictInsert t deps m.dependencies,
      tasks := dictInsert fnName t m.tasks,
      task_order := m.task_order ++ [fnName],
      nextId := m.nextId + 1 }, t)

/-- The list comprehension `[obj.tasks[t_n] for t_n in deps]`: looks each
name up in order and fails with the first missing name (Python `KeyError`). -/
def lookupTasks (tm : List (String × Task)) : List String → Except String (List Task)
  | [] => .ok []
  | n :: rest =>
    match dictGet n tm with
    | none => .error n
    | some t =>
      match lookupTasks tm rest with
      | .error e => .error e
      | .ok ts => .ok (t :: ts)

/-- Termination measure for the traversal: the tasks whose dependency lists
could still be expanded contribute their size.  An entry `(t, ds)` of the
dependency map with `ds ≠ []` and `t.id` not yet visited contributes
`ds.length + 1`. -/
def depWeight : List (Task × List String) → List Nat → Nat
  | [], _ => 0
  | (t, ds) :: rest, visited =>
    (if ds ≠ [] ∧ t.id ∉ visited then ds.length + 1 else 0) + depWeight rest visited

/-- The `while to_visit:` loop of the `run` command.  The head of `tv` is the
element Python's `to_visit.pop()` removes (the Python list is kept reversed),
so `to_visit.extend(dep_objs)` becomes prepending `dep_objs.reverse`.
`visited` is `alredy_fetched_deps_for` (task object identities).  Returns
the chronological submission events and `some missing` on a `KeyError`
abort; `none` only when the step-count fuel runs out, which
`innerLoop_isSome` rules out for the canonical fuel. -/
def innerLoop (dm : List (Task × List String)) (tm : List (String × Task)) (nd : Bool) :
    Nat → List Task → List Nat → Option (List Event × Option String)
  | _, [], _ => some ([], none)
  | 0, _ :: _, _ => none
  | fuel + 1, t :: rest, visited =>
    match dictGet t dm with
    | some ds =>
      if ds ≠ [] ∧ nd = false then
        if t.id ∈ visited then
          innerLoop dm tm nd fuel rest visited
        else
          match lookupTasks tm ds with
          | .error n => some ([], some n)
          | .ok dep_objs =>
            (innerLoop dm tm nd fuel (dep_objs.reverse ++ rest) (t.id :: visited)).map
              (fun r => (Event.edges t dep_objs :: r.1, r.2))
      else
        (innerLoop dm tm nd fuel rest visited).map
          (fun r => (Event.standalone t :: r.1, r.2))
    | none =>
      (innerLoop dm tm nd fuel rest visited).map
        (fun r => (Event.standalone t :: r.1, r.2))

/-- The outer `for task_name, t in obj.tasks.items():` loop, filtered by
membership of `task_name` in the effective requested list; each matching
task starts a fresh traversal (`to_visit = [t]`, empty visited set).  The
first `KeyError` abort stops everything. -/
def outerLoop (dm : List (Task × List String)) (tm : List (String × Task))
    (eff : List String) (nd : Bool) (fuel : Nat) :
    List (String × Task) → Option (List Event × Option String)
  | [] => some ([], none)
  | (task_name, t) :: rest =>
    if task_name ∈ eff then
      match innerLoop dm tm nd fuel [t] [] with
      | none => none
      | some (evs, some missing) => some (evs, some missing)
      | some (evs, none) =>
        (outerLoop dm tm eff nd fuel rest).map (fun r => (evs ++ r.1, r.2))
    else
      outerLoop dm tm eff nd fuel rest

/-- `if len(tasks) == 0: tasks = obj.tasks.keys()`. -/
def MakeCLI.effectiveReq (m : MakeCLI) (requested : List String) : List String :=
  if requested.isEmpty then m.tasks.map Prod.fst else requested

/-- The canonical fuel: one step for the initial stack element plus the
total weight of all expandable dependency entries. -/
def MakeCLI.runFuel (m : MakeCLI) : Nat :=
  1 + depWeight m.dependencies []

/-- The `run` click command: resolves the requested names against the
registry and returns the chronological list of engine calls together with
`some missing` when a dependency lookup aborted the run (in which case
`flow.run()`, i.e. `Event.executeAll`, is never reached).  The `none`
fallback of the match is dead code: `outerLoop_isSome` proves the canonical
fuel always suffices. -/
def MakeCLI.runCmd (m : MakeCLI) (requested : List String) (nd : Bool) :
    List Event × Option String :=
  match outerLoop m.dependencies m.tasks (m.effectiveReq requested) nd m.runFuel m.tasks with
  | none => ([], some "")
  | some (evs, some missing) => (evs, some missing)
  | some (evs, none) => (evs ++ [Event.executeAll], none)

/-- Number of `add_task` (standalone) submissions among the events. -/
def countStandalone (evs : List Event) : Nat :=
  (evs.filter fun e => match e with
    | .standalone _ => true
    | _ => false).length

/-- Number of `add_task` submissions of the task with object identity `i`. -/
def countStandaloneFor (i : Nat) (evs : List Event) : Nat :=
  (evs.filter fun e => match e with
    | .standalone t => t.id == i
    | _ => false).length

/-- Number of `set_dependencies` submissions whose downstream task has
object identity `i` (i.e. how often that task's dependency list was
expanded). -/
def countEdgesFor (i : Nat) (evs : List Event) : Nat :=
  (evs.filter fun e => match e with
    | .edges t _ => t.id == i
    | _ => false).length

/-- The (upstream name, downstream name) pairs of all edge submissions, in
chronological order. -/
def edgeList (evs : List Event) : List (String × String) :=
  evs.foldr
    (fun e acc => match e with
      | .edges t ups => (ups.map fun u => (u.name, t.name)) ++ acc
      | _ => acc) []

/-- Whether an engine call involves the task object `t` at all. -/
def Event.mentions : Event → Task → Prop
  | .edges t' ups, t => t' = t ∨ t ∈ ups
  | .standalone t', t => t' = t
  | .executeAll, _ => False

/-- Registry well-formedness maintained by `MakeCLI.task`: every task object
stored anywhere carries an identity below `nextId`, and the by-name map has
no duplicate keys. -/
def MakeCLI.Wf (m : MakeCLI) : Prop :=
  (∀ p ∈ m.tasks, p.2.id < m.nextId) ∧
  (∀ p ∈ m.dependencies, p.1.id < m.nextId) ∧
  (m.tasks.map Prod.fst).Nodup

/-! ### Concrete registries used by the claims -/

/-- Three tasks `A`, `B`, `C` registered in that order with implied ordering
enabled and no explicit dependencies. -/
def regImplied : MakeCLI :=
  ((((MakeCLI.init true).task "A" none).1.task "B" none).1.task "C" none).1

/-- Two tasks `A`, `B` with no dependencies and no implied ordering. -/
def regPlain : MakeCLI :=
  (((MakeCLI.init false).task "A" none).1.task "B" none).1

/-- `A` depends on `B`, `B` depends on the never-registered name `ghost`. -/
def regMissing : MakeCLI :=
  (((MakeCLI.init false).task "A" (some ["B"])).1.task "B" (some ["ghost"])).1

/-- The two-cycle: `A` depends on `B` and `B` depends on `A`. -/
def regCycle : MakeCLI :=
  (((MakeCLI.init false).task "A" (some ["B"])).1.task "B" (some ["A"])).1

/-- Diamond over a dependency-free task: `Z` has no dependencies, `B` and
`C` both depend on `Z`, `A` depends on `B` and `C`. -/
def regDiamond : MakeCLI :=
  (((((MakeCLI.init false).task "Z" none).1.task "B" (some ["Z"])).1.task "C"
      (some ["Z"])).1.task "A" (some ["B", "C"])).1

/-- A single dependency-free task `A`. -/
def regSingle : MakeCLI :=
  ((MakeCLI.init false).task "A" none).1

/-! ### Association-list (Python dict) lemmas -/

theorem dictGet_dictInsert_self {α β : Type} [DecidableEq α] (k : α) (v : β) :
    ∀ l : List (α × β), dictGet k (dictInsert k v l) = some v := by
  intro l
  induction l with
  | nil => simp [dictGet, dictInsert]
  | cons p rest ih =>
    obtain ⟨k', v'⟩ := p
    by_cases hk : k' = k
    · simp [dictGet, dictInsert, hk]
    · simp [dictGet, dictInsert, hk, ih]

theorem dictGet_mem {α β : Type} [DecidableEq α] {k : α} {v : β} :
    ∀ {l : List (α × β)}, dictGet k l = some v → (k, v) ∈ l := by
  intro l
  induction l with
  | nil => intro h; simp [dictGet] at h
  | cons p rest ih =>
    intro h
    obtain ⟨k', v'⟩ := p
    by_cases hk : k' = k
    · subst hk
      simp [dictGet] at h
      subst h
      exact List.mem_cons_self _ _
    · simp [dictGet, hk] at h
      exact List.mem_cons_of_mem _ (ih h)

theorem dictGet_eq_none {α β : Type} [DecidableEq α] {k : α} :
    ∀ {l : List (α × β)}, dictGet k l = none → ∀ p ∈ l, p.1 ≠ k := by
  intro l
  induction l with
  | nil => intro _ p hp; simp at hp
  | cons q rest ih =>
    intro h p hp
    obtain ⟨k', v'⟩ := q
    by_cases hk : k' = k
    · simp [dictGet, hk] at h
    · simp [dictGet, hk] at h
      rcases List.mem_cons.mp hp with hq | hq
      · subst hq; exact hk
      · exact ih h p hq

theorem mem_dictInsert {α β : Type} [DecidableEq α] {k : α} {v : β} :
    ∀ {l : List (α × β)} {p : α × β}, p ∈ dictInsert k v l → p = (k, v) ∨ p ∈ l := by
  intro l
  induction l with
  | nil => intro p hp; simp [dictInsert] at hp; exact Or.inl hp
  | cons q rest ih =>
    intro p hp
    obtain ⟨k', v'⟩ := q
    by_cases hk : k' = k
    · simp only [dictInsert, if_pos hk] at hp
      rcases List.mem_cons.mp hp with h | h
      · exact Or.inl h
      · exact Or.inr (List.mem_cons_of_mem _ h)
    · simp only [dictInsert, if_neg hk] at hp
      rcases List.mem_cons.mp hp with h | h
      · exact Or.inr (h ▸ List.mem_cons_self _ _)
      · rcases ih h with h' | h'
        · exact Or.inl h'
        · exact Or.inr (List.mem_cons_of_mem _ h')

theorem keys_dictInsert {α β : Type} [DecidableEq α] {k x : α} {v : β} :
    ∀ {l : List (α × β)}, x ∈ (dictInsert k v l).map Prod.fst →
      x = k ∨ x ∈ l.map Prod.fst := by
  intro l hx
  rcases List.mem_map.mp hx with ⟨p, hp, hpx⟩
  rcases mem_dictInsert hp with h | h
  · exact Or.inl (by rw [← hpx, h])
  · exact Or.inr (hpx ▸ List.mem_map_of_mem Prod.fst h)

theorem nodup_keys_dictInsert {α β : Type} [DecidableEq α] {k : α} {v : β} :
    ∀ {l : List (α × β)}, (l.map Prod.fst).Nodup →
      ((dictInsert k v l).map Prod.fst).Nodup := by
  intro l
  induction l with
  | nil => intro _; simp [dictInsert]
  | cons q rest ih =>
    intro hnd
    obtain ⟨k', v'⟩ := q
    simp only [List.map_cons, List.nodup_cons] at hnd
    by_cases hk : k' = k
    · subst hk
      have hins : dictInsert k' v ((k', v') :: rest) = (k', v) :: rest := by
        simp [dictInsert]
      rw [hins]
      simp only [List.map_cons, List.nodup_cons]
      exact hnd
    · simp only [dictInsert, if_neg hk, List.map_cons, List.nodup_cons]
      refine ⟨fun hc => ?_, ih hnd.2⟩
      rcases keys_dictInsert hc with h | h
      · exact hk h
      · exact hnd.1 h

theorem mem_dictInsert_nodup {α β : Type} [DecidableEq α] {k : α} {v : β} :
    ∀ {l : List (α × β)} {p : α × β}, (l.map Prod.fst).Nodup →
      p ∈ dictInsert k v l → p = (k, v) ∨ (p ∈ l ∧ p.1 ≠ k) := by
  intro l
  induction l with
  | nil => intro p _ hp; simp [dictInsert] at hp; exact Or.inl hp
  | cons q rest ih =>
    intro p hnd hp
    obtain ⟨k', v'⟩ := q
    simp only [List.map_cons, List.nodup_cons] at hnd
    by_cases hk : k' = k
    · subst hk
      simp only [dictInsert, if_pos rfl] at hp
      rcases List.mem_cons.mp hp with h | h
      · exact Or.inl h
      · refine Or.inr ⟨List.mem_cons_of_mem _ h, fun hpk => ?_⟩
        exact hnd.1 (hpk ▸ List.mem_map_of_mem Prod.fst h)
    · simp only [dictInsert, if_neg hk] at hp
      rcases List.mem_cons.mp hp with h | h
      · subst h
        exact Or.inr ⟨List.mem_cons_self _ _, hk⟩
      · rcases ih hnd.2 h with h' | h'
        · exact Or.inl h'
        · exact Or.inr ⟨List.mem_cons_of_mem _ h'.1, h'.2⟩

/-! ### `lookupTasks` lemmas -/

theorem lookupTasks_length {tm : List (String × Task)} :
    ∀ {ds : List String} {l : List Task}, lookupTasks tm ds = .ok l → l.length = ds.length := by
  intro ds
  induction ds with
  | nil => intro l h; simp [lookupTasks] at h; simp [← h]
  | cons n rest ih =>
    intro l h
    simp only [lookupTasks] at h
    cases hdg : dictGet n tm with
    | none => rw [hdg] at h; simp at h
    | some t =>
      rw [hdg] at h
      cases hrec : lookupTasks tm rest with
      | error e => rw [hrec] at h; simp at h
      | ok ts =>
        rw [hrec] at h
        simp at h
        subst h
        simp [ih hrec]

theorem lookupTasks_mem {tm : List (String × Task)} :
    ∀ {ds : List String} {l : List Task} {t : Task},
      lookupTasks tm ds = .ok l → t ∈ l → ∃ n, dictGet n tm = some t := by
  intro ds
  induction ds with
  | nil => intro l t h ht; simp [lookupTasks] at h; subst h; simp at ht
  | cons n rest ih =>
    intro l t h ht
    simp only [lookupTasks] at h
    cases hdg : dictGet n tm with
    | none => rw [hdg] at h; simp at h
    | some t' =>
      rw [hdg] at h
      cases hrec : lookupTasks tm rest with
      | error e => rw [hrec] at h; simp at h
      | ok ts =>
        rw [hrec] at h
        simp at h
        subst h
        rcases List.mem_cons.mp ht with h' | h'
        · exact ⟨n, by rw [hdg, h']⟩
        · exact ih hrec h'

theorem lookupTasks_error {tm : List (String × Task)} :
    ∀ {ds : List String} {n : String},
      lookupTasks tm ds = .error n → dictGet n tm = none ∧ n ∈ ds := by
  intro ds
  induction ds with
  | nil => intro n h; simp [lookupTasks] at h
  | cons d rest ih =>
    intro n h
    simp only [lookupTasks] at h
    cases hdg : dictGet d tm with
    | none =>
      rw [hdg] at h
      simp at h
      subst h
      exact ⟨hdg, List.mem_cons_self _ _⟩
    | some t =>
      rw [hdg] at h
      cases hrec : lookupTasks tm rest with
      | error e =>
        rw [hrec] at h
        simp at h
        subst h
        exact ⟨(ih hrec).1, List.mem_cons_of_mem _ (ih hrec).2⟩
      | ok ts => rw [hrec] at h; simp at h

theorem lookupTasks_error_of_missing {tm : List (String × Task)} :
    ∀ {ds : List String} {d : String}, d ∈ ds → dictGet d tm = none →
      ∃ n, lookupTasks tm ds = .error n := by
  intro ds
  induction ds with
  | nil => intro d hd; simp at hd
  | cons n rest ih =>
    intro d hd hnone
    simp only [lookupTasks]
    cases hdg : dictGet n tm with
    | none => exact ⟨n, rfl⟩
    | some t =>
      rcases List.mem_cons.mp hd with h | h
      · subst h; rw [hdg] at hnone; simp at hnone
      · rcases ih h hnone with ⟨e, he⟩
        rw [he]
        exact ⟨e, rfl⟩

/-! ### Termination measure lemmas -/

theorem depWeight_cons_le (dm : List (Task × List String)) (i : Nat) :
    ∀ visited : List Nat, depWeight dm (i :: visited) ≤ depWeight dm visited := by
  induction dm with
  | nil => intro visited; simp [depWeight]
  | cons p rest ih =>
    intro visited
    obtain ⟨t, ds⟩ := p
    simp only [depWeight]
    apply Nat.add_le_add _ (ih visited)
    by_cases h : ds ≠ [] ∧ t.id ∉ (i :: visited)
    · rw [if_pos h]
      have : ds ≠ [] ∧ t.id ∉ visited := ⟨h.1, fun hv => h.2 (List.mem_cons_of_mem _ hv)⟩
      rw [if_pos this]
    · rw [if_neg h]
      exact Nat.zero_le _

theorem depWeight_expand {t : Task} {ds : List String} :
    ∀ {dm : List (Task × List String)} {visited : List Nat},
      dictGet t dm = some ds → ds ≠ [] → t.id ∉ visited →
      depWeight dm (t.id :: visited) + ds.length + 1 ≤ depWeight dm visited := by
  intro dm
  induction dm with
  | nil => intro visited h; simp [dictGet] at h
  | cons p rest ih =>
    intro visited h hne hnv
    obtain ⟨t', ds'⟩ := p
    by_cases ht : t' = t
    · subst ht
      simp [dictGet] at h
      subst h
      simp only [depWeight]
      have h1 : ¬(ds' ≠ [] ∧ t'.id ∉ (t'.id :: visited)) := by
        intro hc
        exact hc.2 (List.mem_cons_self _ _)
      have h2 : ds' ≠ [] ∧ t'.id ∉ visited := ⟨hne, hnv⟩
      rw [if_neg h1, if_pos h2]
      have := depWeight_cons_le rest t'.id visited
      omega
    · simp [dictGet, ht] at h
      have htail := ih h hne hnv
      simp only [depWeight]
      by_cases hc : ds' ≠ [] ∧ t'.id ∉ visited
      · rw [if_pos hc]
        have : ds' ≠ [] ∧ t'.id ∉ (t.id :: visited) ∨ ¬(ds' ≠ [] ∧ t'.id ∉ (t.id :: visited)) :=
          Decidable.em _
        rcases this with h' | h'
        · rw [if_pos h']; omega
        · rw [if_neg h']; omega
      · rw [if_neg hc]
        have h' : ¬(ds' ≠ [] ∧ t'.id ∉ (t.id :: visited)) := by
          intro hcc
          exact hc ⟨hcc.1, fun hv => hcc.2 (List.mem_cons_of_mem _ hv)⟩
        rw [if_neg h']
        omega

/-! ### Termination of the traversal: the canonical fuel suffices -/

theorem innerLoop_isSome (dm : List (Task × List String)) (tm : List (String × Task))
    (nd : Bool) :
    ∀ (fuel : Nat) (tv : List Task) (visited : List Nat),
      tv.length + depWeight dm visited ≤ fuel →
      (innerLoop dm tm nd fuel tv visited).isSome = true := by
  intro fuel
  induction fuel with
  | zero =>
    intro tv visited hle
    cases tv with
    | nil => simp [innerLoop]
    | cons t rest => simp [List.length_cons] at hle
  | succ f ih =>
    intro tv visited hle
    cases tv with
    | nil => simp [innerLoop]
    | cons t rest =>
      simp only [List.length_cons] at hle
      simp only [innerLoop]
      split
      case h_2 =>
        rw [Option.isSome_map']
        apply ih
        omega
      case h_1 ds hdg =>
        by_cases hcond : ds ≠ [] ∧ nd = false
        · rw [if_pos hcond]
          by_cases hv : t.id ∈ visited
          · rw [if_pos hv]
            apply ih
            omega
          · rw [if_neg hv]
            cases hlk : lookupTasks tm ds with
            | error n => simp
            | ok dep_objs =>
              rw [Option.isSome_map']
              apply ih
              have hlen := lookupTasks_length hlk
              have hexp := depWeight_expand hdg hcond.1 hv
              simp only [List.length_append, List.length_reverse]
              omega
        · rw [if_neg hcond]
          rw [Option.isSome_map']
          apply ih
          omega

theorem outerLoop_isSome (dm : List (Task × List String)) (tm : List (String × Task))
    (eff : List String) (nd : Bool) (fuel : Nat) (hfuel : 1 + depWeight dm [] ≤ fuel) :
    ∀ tl : List (String × Task), (outerLoop dm tm eff nd fuel tl).isSome = true := by
  intro tl
  induction tl with
  | nil => simp [outerLoop]
  | cons p rest ih =>
    obtain ⟨task_name, t⟩ := p
    simp only [outerLoop]
    by_cases hm : task_name ∈ eff
    · rw [if_pos hm]
      have hin : (innerLoop dm tm nd fuel [t] []).isSome = true := by
        apply innerLoop_isSome
        simpa using hfuel
      split
      next hres => rw [hres] at hin; simp at hin
      next evs missing hres => simp
      next evs hres => rw [Option.isSome_map']; exact ih
    · rw [if_neg hm]
      exact ih

/-! ### Trace facts: `flow.run` never occurs inside the loops, aborts name a
missing task -/

theorem innerLoop_sound (dm : List (Task × List String)) (tm : List (String × Task))
    (nd : Bool) :
    ∀ (fuel : Nat) (tv : List Task) (visited : List Nat) (evs : List Event)
      (out : Option String),
      innerLoop dm tm nd fuel tv visited = some (evs, out) →
      Event.executeAll ∉ evs ∧ ∀ n, out = some n → dictGet n tm = none := by
  intro fuel
  induction fuel with
  | zero =>
    intro tv visited evs out h
    cases tv with
    | nil =>
      simp [innerLoop] at h
      obtain ⟨rfl, rfl⟩ := h
      exact ⟨by simp, by simp⟩
    | cons t rest => simp [innerLoop] at h
  | succ f ih =>
    intro tv visited evs out h
    cases tv with
    | nil =>
      simp [innerLoop] at h
      obtain ⟨rfl, rfl⟩ := h
      exact ⟨by simp, by simp⟩
    | cons t rest =>
      simp only [innerLoop] at h
      split at h
      case h_1 ds hdg =>
        split at h
        · split at h
          · exact ih rest visited evs out h
          · split at h
            case h_1 n hlk =>
              rw [Option.some.injEq, Prod.mk.injEq] at h
              refine ⟨by rw [← h.1]; simp, fun n' hn' => ?_⟩
              rw [← h.2] at hn'
              injection hn' with hnn
              subst hnn
              exact (lookupTasks_error hlk).1
            case h_2 dep_objs hlk =>
              cases hrec : innerLoop dm tm nd f (dep_objs.reverse ++ rest)
                  (t.id :: visited) with
              | none => rw [hrec] at h; simp at h
              | some r =>
                obtain ⟨evs', out'⟩ := r
                rw [hrec] at h
                simp at h
                have hr := ih _ _ _ _ hrec
                refine ⟨?_, ?_⟩
                · rw [← h.1]
                  intro hc
                  rcases List.mem_cons.mp hc with hc | hc
                  · cases hc
                  · exact hr.1 hc
                · intro n hn
                  exact hr.2 n (by rw [h.2, hn])
        · cases hrec : innerLoop dm tm nd f rest visited with
          | none => rw [hrec] at h; simp at h
          | some r =>
            obtain ⟨evs', out'⟩ := r
            rw [hrec] at h
            simp at h
            have hr := ih _ _ _ _ hrec
            refine ⟨?_, ?_⟩
            · rw [← h.1]
              intro hc
              rcases List.mem_cons.mp hc with hc | hc
              · cases hc
              · exact hr.1 hc
            · intro n hn
              exact hr.2 n (by rw [h.2, hn])
      case h_2 hdg =>
        cases hrec : innerLoop dm tm nd f rest visited with
        | none => rw [hrec] at h; simp at h
        | some r =>
          obtain ⟨evs', out'⟩ := r
          rw [hrec] at h
          simp at h
          have hr := ih _ _ _ _ hrec
          refine ⟨?_, ?_⟩
          · rw [← h.1]
            intro hc
            rcases List.mem_cons.mp hc with hc | hc
            · cases hc
            · exact hr.1 hc
          · intro n hn
            exact hr.2 n (by rw [h.2, hn])

theorem outerLoop_sound (dm : List (Task × List String)) (tm : List (String × Task))
    (eff : List String) (nd : Bool) (fuel : Nat) :
    ∀ (tl : List (String × Task)) (evs : List Event) (out : Option String),
      outerLoop dm tm eff nd fuel tl = some (evs, out) →
      Event.executeAll ∉ evs ∧ ∀ n, out = some n → dictGet n tm = none := by
  intro tl
  induction tl with
  | nil =>
    intro evs out h
    simp [outerLoop] at h
    obtain ⟨rfl, rfl⟩ := h
    exact ⟨by simp, by simp⟩
  | cons p rest ih =>
    intro evs out h
    obtain ⟨task_name, t⟩ := p
    simp only [outerLoop] at h
    by_cases hm : task_name ∈ eff
    · rw [if_pos hm] at h
      split at h
      next hres => simp at h
      next evs0 missing hres =>
        rw [Option.some.injEq, Prod.mk.injEq] at h
        have hs := innerLoop_sound dm tm nd fuel [t] [] evs0 (some missing) hres
        refine ⟨by rw [← h.1]; exact hs.1, fun n hn => ?_⟩
        rw [← h.2] at hn
        injection hn with hnn
        subst hnn
        exact hs.2 _ rfl
      next evs0 hres =>
        cases hrec : outerLoop dm tm eff nd fuel rest with
        | none => rw [hrec] at h; simp at h
        | some r =>
          obtain ⟨evs', out'⟩ := r
          rw [hrec] at h
          simp at h
          have hr := ih _ _ hrec
          have hs := innerLoop_sound dm tm nd fuel [t] [] evs0 none hres
          refine ⟨?_, ?_⟩
          · rw [← h.1]
            intro hc
            rcases List.mem_append.mp hc with hc | hc
            · exact hs.1 hc
            · exact hr.1 hc
          · intro n hn
            exact hr.2 n (by rw [h.2, hn])
    · rw [if_neg hm] at h
      exact ih _ _ h

/-! ### Runs in which every pop takes the `add_task` branch -/

theorem innerLoop_single_standalone (dm : List (Task × List String))
    (tm : List (String × Task)) (nd : Bool) (f : Nat) (t : Task) (visited : List Nat)
    (h : nd = true ∨ dictGet t dm = none ∨ dictGet t dm = some []) :
    innerLoop dm tm nd (f + 1) [t] visited = some ([Event.standalone t], none) := by
  simp only [innerLoop]
  cases hdg : dictGet t dm with
  | none => simp [innerLoop]
  | some ds =>
    have hcond : ¬(ds ≠ [] ∧ nd = false) := by
      rcases h with h | h | h
      · intro hc
        rw [h] at hc
        exact absurd hc.2 (by simp)
      · rw [hdg] at h
        cases h
      · rw [hdg] at h
        injection h with h
        intro hc
        exact hc.1 h
    simp [hcond]

theorem outerLoop_all_standalone (dm : List (Task × List String))
    (tm : List (String × Task)) (eff : List String) (nd : Bool) (f : Nat)
    (hstep : ∀ t : Task,
      innerLoop dm tm nd (f + 1) [t] [] = some ([Event.standalone t], none)) :
    ∀ tl : List (String × Task),
      outerLoop dm tm eff nd (f + 1) tl =
        some ((tl.filter fun p => decide (p.1 ∈ eff)).map fun p => Event.standalone p.2,
          none) := by
  intro tl
  induction tl with
  | nil => simp [outerLoop]
  | cons p rest ih =>
    obtain ⟨task_name, t⟩ := p
    simp only [outerLoop]
    by_cases hm : task_name ∈ eff
    · rw [if_pos hm, hstep t]
      simp [ih, List.filter_cons, hm]
    · rw [if_neg hm, ih]
      simp [List.filter_cons, hm]

/-! ### Only membership of registered names in the requested list matters -/

theorem outerLoop_congr (dm : List (Task × List String)) (tm : List (String × Task))
    (eff eff' : List String) (nd : Bool) (fuel : Nat) :
    ∀ tl : List (String × Task), (∀ p ∈ tl, p.1 ∈ eff ↔ p.1 ∈ eff') →
      outerLoop dm tm eff nd fuel tl = outerLoop dm tm eff' nd fuel tl := by
  intro tl
  induction tl with
  | nil => intro _; simp [outerLoop]
  | cons p rest ih =>
    intro hag
    obtain ⟨task_name, t⟩ := p
    have hhead := hag (task_name, t) (List.mem_cons_self _ _)
    have htail : ∀ p ∈ rest, p.1 ∈ eff ↔ p.1 ∈ eff' := fun p hp =>
      hag p (List.mem_cons_of_mem _ hp)
    simp only [outerLoop]
    by_cases hm : task_name ∈ eff
    · rw [if_pos hm, if_pos (hhead.mp hm), ih htail]
    · rw [if_neg hm, if_neg (fun hc => hm (hhead.mpr hc)), ih htail]

/-! ### Every submitted task object comes from the by-name registry -/

theorem innerLoop_mentions (dm : List (Task × List String)) (tm : List (String × Task))
    (nd : Bool) :
    ∀ (fuel : Nat) (tv : List Task) (visited : List Nat) (evs : List Event)
      (out : Option String),
      innerLoop dm tm nd fuel tv visited = some (evs, out) →
      ∀ e ∈ evs, ∀ x : Task, e.mentions x → x ∈ tv ∨ ∃ nm, dictGet nm tm = some x := by
  intro fuel
  induction fuel with
  | zero =>
    intro tv visited evs out h
    cases tv with
    | nil =>
      simp [innerLoop] at h
      obtain ⟨rfl, rfl⟩ := h
      simp
    | cons t rest => simp [innerLoop] at h
  | succ f ih =>
    intro tv visited evs out h
    cases tv with
    | nil =>
      simp [innerLoop] at h
      obtain ⟨rfl, rfl⟩ := h
      simp
    | cons t rest =>
      simp only [innerLoop] at h
      split at h
      case h_1 ds hdg =>
        split at h
        · split at h
          · intro e he x hx
            rcases ih rest visited evs out h e he x hx with hm | hm
            · exact Or.inl (List.mem_cons_of_mem _ hm)
            · exact Or.inr hm
          · split at h
            case h_1 n hlk =>
              rw [Option.some.injEq, Prod.mk.injEq] at h
              rw [← h.1]
              intro e he
              simp at he
            case h_2 dep_objs hlk =>
              cases hrec : innerLoop dm tm nd f (dep_objs.reverse ++ rest)
                  (t.id :: visited) with
              | none => rw [hrec] at h; simp at h
              | some r =>
                obtain ⟨evs', out'⟩ := r
                rw [hrec] at h
                simp at h
                intro e he x hx
                rw [← h.1] at he
                rcases List.mem_cons.mp he with he | he
                · subst he
                  rcases hx with hx | hx
                  · exact Or.inl (hx ▸ List.mem_cons_self _ _)
                  · exact Or.inr (lookupTasks_mem hlk hx)
                · rcases ih _ _ _ _ hrec e he x hx with hm | hm
                  · rcases List.mem_append.mp hm with hm | hm
                    · exact Or.inr (lookupTasks_mem hlk (List.mem_reverse.mp hm))
                    · exact Or.inl (List.mem_cons_of_mem _ hm)
                  · exact Or.inr hm
        · cases hrec : innerLoop dm tm nd f rest visited with
          | none => rw [hrec] at h; simp at h
          | some r =>
            obtain ⟨evs', out'⟩ := r
            rw [hrec] at h
            simp at h
            intro e he x hx
            rw [← h.1] at he
            rcases List.mem_cons.mp he with he | he
            · subst he
              exact Or.inl (hx ▸ List.mem_cons_self _ _)
            · rcases ih _ _ _ _ hrec e he x hx with hm | hm
              · exact Or.inl (List.mem_cons_of_mem _ hm)
              · exact Or.inr hm
      case h_2 hdg =>
        cases hrec : innerLoop dm tm nd f rest visited with
        | none => rw [hrec] at h; simp at h
        | some r =>
          obtain ⟨evs', out'⟩ := r
          rw [hrec] at h
          simp at h
          intro e he x hx
          rw [← h.1] at he
          rcases List.mem_cons.mp he with he | he
          · subst he
            exact Or.inl (hx ▸ List.mem_cons_self _ _)
          · rcases ih _ _ _ _ hrec e he x hx with hm | hm
            · exact Or.inl (List.mem_cons_of_mem _ hm)
            · exact Or.inr hm

theorem outerLoop_mentions (dm : List (Task × List String)) (tm : List (String × Task))
    (eff : List String) (nd : Bool) (fuel : Nat) :
    ∀ (tl : List (String × Task)) (evs : List Event) (out : Option String),
      outerLoop dm tm eff nd fuel tl = some (evs, out) →
      ∀ e ∈ evs, ∀ x : Task, e.mentions x →
        (∃ p ∈ tl, p.2 = x) ∨ ∃ nm, dictGet nm tm = some x := by
  intro tl
  induction tl with
  | nil =>
    intro evs out h
    simp [outerLoop] at h
    obtain ⟨rfl, rfl⟩ := h
    simp
  | cons p rest ih =>
    intro evs out h
    obtain ⟨task_name, t⟩ := p
    simp only [outerLoop] at h
    by_cases hm : task_name ∈ eff
    · rw [if_pos hm] at h
      split at h
      next hres => simp at h
      next evs0 missing hres =>
        rw [Option.some.injEq, Prod.mk.injEq] at h
        intro e he x hx
        rw [← h.1] at he
        rcases innerLoop_mentions dm tm nd fuel [t] [] evs0 (some missing) hres
            e he x hx with hm' | hm'
        · simp at hm'
          exact Or.inl ⟨(task_name, t), List.mem_cons_self _ _, hm'.symm⟩
        · exact Or.inr hm'
      next evs0 hres =>
        cases hrec : outerLoop dm tm eff nd fuel rest with
        | none => rw [hrec] at h; simp at h
        | some r =>
          obtain ⟨evs', out'⟩ := r
          rw [hrec] at h
          simp at h
          intro e he x hx
          rw [← h.1] at he
          rcases List.mem_append.mp he with he | he
          · rcases innerLoop_mentions dm tm nd fuel [t] [] evs0 none hres
                e he x hx with hm' | hm'
            · simp at hm'
              exact Or.inl ⟨(task_name, t), List.mem_cons_self _ _, hm'.symm⟩
            · exact Or.inr hm'
          · rcases ih _ _ hrec e he x hx with hm' | hm'
            · obtain ⟨q, hq, hqx⟩ := hm'
              exact Or.inl ⟨q, List.mem_cons_of_mem _ hq, hqx⟩
            · exact Or.inr hm'
    · rw [if_neg hm] at h
      intro e he x hx
      rcases ih _ _ h e he x hx with hm' | hm'
      · obtain ⟨q, hq, hqx⟩ := hm'
        exact Or.inl ⟨q, List.mem_cons_of_mem _ hq, hqx⟩
      · exact Or.inr hm'

/-! ### The "already fetched" guard: at most one expansion per task object -/

theorem innerLoop_edges_once (dm : List (Task × List String)) (tm : List (String × Task))
    (nd : Bool) :
    ∀ (fuel : Nat) (tv : List Task) (visited : List Nat) (evs : List Event)
      (out : Option String),
      innerLoop dm tm nd fuel tv visited = some (evs, out) →
      ∀ i : Nat, countEdgesFor i evs ≤ if i ∈ visited then 0 else 1 := by
  intro fuel
  induction fuel with
  | zero =>
    intro tv visited evs out h
    cases tv with
    | nil =>
      simp [innerLoop] at h
      obtain ⟨rfl, rfl⟩ := h
      intro i
      simp [countEdgesFor]
    | cons t rest => simp [innerLoop] at h
  | succ f ih =>
    intro tv visited evs out h
    cases tv with
    | nil =>
      simp [innerLoop] at h
      obtain ⟨rfl, rfl⟩ := h
      intro i
      simp [countEdgesFor]
    | cons t rest =>
      simp only [innerLoop] at h
      split at h
      case h_1 ds hdg =>
        by_cases hcond : ds ≠ [] ∧ nd = false
        · rw [if_pos hcond] at h
          by_cases hv : t.id ∈ visited
          · rw [if_pos hv] at h
            exact ih rest visited evs out h
          · rw [if_neg hv] at h
            split at h
            next n hlk =>
              rw [Option.some.injEq, Prod.mk.injEq] at h
              rw [← h.1]
              intro i
              simp [countEdgesFor]
            next dep_objs hlk =>
              cases hrec : innerLoop dm tm nd f (dep_objs.reverse ++ rest)
                  (t.id :: visited) with
              | none => rw [hrec] at h; simp at h
              | some r =>
                obtain ⟨evs', out'⟩ := r
                rw [hrec] at h
                simp at h
                intro i
                have hrest := ih _ _ _ _ hrec i
                rw [← h.1]
                by_cases hit : t.id = i
                · have : countEdgesFor i (Event.edges t dep_objs :: evs') =
                      1 + countEdgesFor i evs' := by
                    simp [countEdgesFor, List.filter_cons, hit, Nat.add_comm]
                  rw [this]
                  have h0 : countEdgesFor i evs' = 0 := by
                    have : i ∈ t.id :: visited := by
                      rw [hit]
                      exact List.mem_cons_self _ _
                    rw [if_pos this] at hrest
                    omega
                  rw [if_neg (hit ▸ hv)]
                  omega
                · have : countEdgesFor i (Event.edges t dep_objs :: evs') =
                      countEdgesFor i evs' := by
                    simp [countEdgesFor, List.filter_cons, hit]
                  rw [this]
                  have hiff : (i ∈ t.id :: visited) ↔ (i ∈ visited) := by
                    constructor
                    · intro hc
                      rcases List.mem_cons.mp hc with hc | hc
                      · exact absurd hc.symm hit
                      · exact hc
                    · exact List.mem_cons_of_mem _
                  by_cases hiv : i ∈ visited
                  · rw [if_pos hiv]
                    rw [if_pos (hiff.mpr hiv)] at hrest
                    exact hrest
                  · rw [if_neg hiv]
                    rw [if_neg (fun hc => hiv (hiff.mp hc))] at hrest
                    exact hrest
        · rw [if_neg hcond] at h
          cases hrec : innerLoop dm tm nd f rest visited with
          | none => rw [hrec] at h; simp at h
          | some r =>
            obtain ⟨evs', out'⟩ := r
            rw [hrec] at h
            simp at h
            intro i
            have hrest := ih _ _ _ _ hrec i
            rw [← h.1]
            have : countEdgesFor i (Event.standalone t :: evs') = countEdgesFor i evs' := by
              simp [countEdgesFor, List.filter_cons]
            rw [this]
            exact hrest
      case h_2 hdg =>
        cases hrec : innerLoop dm tm nd f rest visited with
        | none => rw [hrec] at h; simp at h
        | some r =>
          obtain ⟨evs', out'⟩ := r
          rw [hrec] at h
          simp at h
          intro i
          have hrest := ih _ _ _ _ hrec i
          rw [← h.1]
          have : countEdgesFor i (Event.standalone t :: evs') = countEdgesFor i evs' := by
            simp [countEdgesFor, List.filter_cons]
          rw [this]
          exact hrest

/-! ### A missing dependency of a requested task forces an abort -/

theorem innerLoop_abort_head (dm : List (Task × List String)) (tm : List (String × Task))
    (f : Nat) (t : Task) (ds : List String) (d : String)
    (hdg : dictGet t dm = some ds) (hne : ds ≠ []) (hd : d ∈ ds)
    (hmiss : dictGet d tm = none) :
    ∃ n, innerLoop dm tm false (f + 1) [t] [] = some ([], some n) := by
  obtain ⟨n, hn⟩ := lookupTasks_error_of_missing hd hmiss
  refine ⟨n, ?_⟩
  simp [innerLoop, hdg, hne, hn]

theorem outerLoop_abort (dm : List (Task × List String)) (tm : List (String × Task))
    (eff : List String) (nd : Bool) (fuel : Nat) (hfuel : 1 + depWeight dm [] ≤ fuel) :
    ∀ (tl : List (String × Task)) (name : String) (t : Task),
      (name, t) ∈ tl → name ∈ eff →
      (∃ evs0 n0, innerLoop dm tm nd fuel [t] [] = some (evs0, some n0)) →
      ∃ evs n, outerLoop dm tm eff nd fuel tl = some (evs, some n) := by
  intro tl
  induction tl with
  | nil => intro name t hmem; simp at hmem
  | cons p rest ih =>
    intro name t hmem heff habort
    obtain ⟨task_name, t'⟩ := p
    simp only [outerLoop]
    by_cases hm : task_name ∈ eff
    · rw [if_pos hm]
      have hin : (innerLoop dm tm nd fuel [t'] []).isSome = true := by
        apply innerLoop_isSome
        simpa using hfuel
      cases hres : innerLoop dm tm nd fuel [t'] [] with
      | none => rw [hres] at hin; simp at hin
      | some r =>
        obtain ⟨evs1, out1⟩ := r
        cases out1 with
        | some n1 => exact ⟨evs1, n1, rfl⟩
        | none =>
          have hrest : (name, t) ∈ rest := by
            rcases List.mem_cons.mp hmem with hc | hc
            · exfalso
              obtain ⟨evs0, n0, h0⟩ := habort
              injection hc with hc1 hc2
              rw [← hc2] at hres
              rw [h0] at hres
              injection hres with hres
              injection hres with _ hres2
              exact Option.noConfusion hres2
            · exact hc
          obtain ⟨evs, n, hout⟩ := ih name t hrest heff habort
          rw [hout]
          exact ⟨evs1 ++ evs, n, rfl⟩
    · rw [if_neg hm]
      have hrest : (name, t) ∈ rest := by
        rcases List.mem_cons.mp hmem with hc | hc
        · exfalso
          injection hc with hc1 hc2
          rw [← hc1] at hm
          exact hm heff
        · exact hc
      exact ih name t hrest heff habort

/-! ### Reachability through the dependency map, and completeness of the
abort: a successful traversal visits every reachable task, so a reachable
missing dependency forces an abort -/

/-- A task object stored as a value of the by-name registry. -/
def IsVal (tm : List (String × Task)) (t : Task) : Prop :=
  ∃ p ∈ tm, p.2 = t

/-- A task from which the traversal expands nothing: no recorded dependency
list, or an empty one. -/
def NoExpand (dm : List (Task × List String)) (t : Task) : Prop :=
  dictGet t dm = none ∨ dictGet t dm = some []

/-- The task declares an upstream name that was never registered. -/
def hasMissingDep (dm : List (Task × List String)) (tm : List (String × Task))
    (u : Task) : Prop :=
  ∃ ds d, dictGet u dm = some ds ∧ ds ≠ [] ∧ d ∈ ds ∧ dictGet d tm = none

/-- `u` is reached from `t` by following recorded dependency names through
the by-name registry — the tasks whose dependency lists the traversal
expands when it starts from `t`. -/
inductive Reaches (dm : List (Task × List String)) (tm : List (String × Task)) :
    Task → Task → Prop
  | refl (t : Task) : Reaches dm tm t t
  | step {t t' u : Task} {ds : List String} {n : String} :
      dictGet t dm = some ds → ds ≠ [] → n ∈ ds → dictGet n tm = some t' →
      Reaches dm tm t' u → Reaches dm tm t u

/-- Invariant of the traversal: every visited registry value with a
non-empty dependency list had that list successfully resolved, and each of
its dependency objects is itself visited, still on the stack, or expands
nothing. -/
def VisitedClosed (dm : List (Task × List String)) (tm : List (String × Task))
    (visited : List Nat) (tv : List Task) : Prop :=
  ∀ v ds, IsVal tm v → v.id ∈ visited → dictGet v dm = some ds → ds ≠ [] →
    ∃ dep_objs, lookupTasks tm ds = .ok dep_objs ∧
      ∀ w ∈ dep_objs, w.id ∈ visited ∨ w ∈ tv ∨ NoExpand dm w

theorem lookupTasks_ok_resolves {tm : List (String × Task)} :
    ∀ {ds : List String} {l : List Task}, lookupTasks tm ds = .ok l →
      ∀ n ∈ ds, ∃ t, dictGet n tm = some t := by
  intro ds
  induction ds with
  | nil => intro l _ n hn; simp at hn
  | cons d rest ih =>
    intro l h n hn
    simp only [lookupTasks] at h
    cases hdg : dictGet d tm with
    | none => rw [hdg] at h; simp at h
    | some t =>
      rw [hdg] at h
      cases hrec : lookupTasks tm rest with
      | error e => rw [hrec] at h; simp at h
      | ok ts =>
        rcases List.mem_cons.mp hn with hc | hc
        · exact ⟨t, hc ▸ hdg⟩
        · exact ih hrec n hc

theorem lookupTasks_ok_mem {tm : List (String × Task)} :
    ∀ {ds : List String} {l : List Task} {n : String} {t : Task},
      lookupTasks tm ds = .ok l → n ∈ ds → dictGet n tm = some t → t ∈ l := by
  intro ds
  induction ds with
  | nil => intro l n t _ hn; simp at hn
  | cons d rest ih =>
    intro l n t h hn hdgn
    simp only [lookupTasks] at h
    cases hdg : dictGet d tm with
    | none => rw [hdg] at h; simp at h
    | some t' =>
      rw [hdg] at h
      cases hrec : lookupTasks tm rest with
      | error e => rw [hrec] at h; simp at h
      | ok ts =>
        rw [hrec] at h
        simp at h
        subst h
        rcases List.mem_cons.mp hn with hc | hc
        · subst hc
          rw [hdgn] at hdg
          injection hdg with hdg
          exact hdg ▸ List.mem_cons_self _ _
        · exact List.mem_cons_of_mem _ (ih hrec hc hdgn)

/-- Anything reachable from a visited task in a closed state (empty stack)
is free of missing dependencies. -/
theorem reach_closed_of_visited (dm : List (Task × List String))
    (tm : List (String × Task)) (visited : List Nat)
    (hinv : VisitedClosed dm tm visited []) :
    ∀ t u, Reaches dm tm t u → IsVal tm t → t.id ∈ visited →
      ¬ hasMissingDep dm tm u := by
  intro t u hreach
  induction hreach with
  | refl t0 =>
    intro hval hvis hbad
    obtain ⟨ds, d, hdg, hne, hd, hmiss⟩ := hbad
    obtain ⟨dep_objs, hlk, _⟩ := hinv t0 ds hval hvis hdg hne
    obtain ⟨t', ht'⟩ := lookupTasks_ok_resolves hlk d hd
    rw [ht'] at hmiss
    cases hmiss
  | step hdg hne hn hresolve hreach' ih =>
    intro hval hvis hbad
    obtain ⟨dep_objs, hlk, hw⟩ := hinv _ _ hval hvis hdg hne
    have ht' := lookupTasks_ok_mem hlk hn hresolve
    rcases hw _ ht' with hv | hv | hv
    · exact ih ⟨_, dictGet_mem hresolve, rfl⟩ hv hbad
    · simp at hv
    · cases hreach' with
      | refl =>
        obtain ⟨ds', d', hdg', hne', _, _⟩ := hbad
        rcases hv with hv | hv
        · rw [hv] at hdg'
          cases hdg'
        · rw [hv] at hdg'
          injection hdg' with hdg'
          exact hne' hdg'.symm
      | step hdg'' hne'' _ _ _ =>
        rcases hv with hv | hv
        · rw [hv] at hdg''
          cases hdg''
        · rw [hv] at hdg''
          injection hdg'' with hdg''
          exact hne'' hdg''.symm

/-- Completeness of the abort on one traversal: when the inner loop runs to
completion without aborting (with dependencies enabled), no task reachable
from a stack task (or from a visited task) declares an unregistered
upstream name. -/
theorem innerLoop_success_no_missing (dm : List (Task × List String))
    (tm : List (String × Task)) :
    ∀ (fuel : Nat) (tv : List Task) (visited : List Nat) (evs : List Event),
      innerLoop dm tm false fuel tv visited = some (evs, none) →
      (∀ t ∈ tv, IsVal tm t) →
      (∀ x y, IsVal tm x → IsVal tm y → x.id = y.id → x = y) →
      VisitedClosed dm tm visited tv →
      ∀ t u, Reaches dm tm t u →
        (t ∈ tv ∨ (IsVal tm t ∧ t.id ∈ visited)) →
        ¬ hasMissingDep dm tm u := by
  intro fuel
  induction fuel with
  | zero =>
    intro tv visited evs h htv hinj hinv t u hreach hroot
    cases tv with
    | nil =>
      rcases hroot with hr | hr
      · simp at hr
      · exact reach_closed_of_visited dm tm visited hinv t u hreach hr.1 hr.2
    | cons t0 rest => simp [innerLoop] at h
  | succ f ih =>
    intro tv visited evs h htv hinj hinv t u hreach hroot
    cases tv with
    | nil =>
      rcases hroot with hr | hr
      · simp at hr
      · exact reach_closed_of_visited dm tm visited hinv t u hreach hr.1 hr.2
    | cons t0 rest =>
      have htv0 : IsVal tm t0 := htv t0 (List.mem_cons_self _ _)
      have htvrest : ∀ x ∈ rest, IsVal tm x := fun x hx =>
        htv x (List.mem_cons_of_mem _ hx)
      simp only [innerLoop] at h
      split at h
      case h_1 ds0 hdg0 =>
        by_cases hne0 : ds0 = []
        · rw [if_neg (by simp [hne0])] at h
          cases hrec : innerLoop dm tm false f rest visited with
          | none => rw [hrec] at h; simp at h
          | some r =>
            obtain ⟨evs', out'⟩ := r
            rw [hrec] at h
            simp at h
            rw [h.2] at hrec
            have hinv' : VisitedClosed dm tm visited rest := by
              intro v ds hval hvis hdgv hnev
              obtain ⟨dep_objs, hlk, hw⟩ := hinv v ds hval hvis hdgv hnev
              refine ⟨dep_objs, hlk, fun w hwmem => ?_⟩
              rcases hw w hwmem with hv | hv | hv
              · exact Or.inl hv
              · rcases List.mem_cons.mp hv with hc | hc
                · exact Or.inr (Or.inr (hc ▸ Or.inr (hne0 ▸ hdg0)))
                · exact Or.inr (Or.inl hc)
              · exact Or.inr (Or.inr hv)
            rcases hroot with hr | hr
            · rcases List.mem_cons.mp hr with hc | hc
              · subst hc
                cases hreach with
                | refl =>
                  intro hbad
                  obtain ⟨ds', d', hdg', hne', _, _⟩ := hbad
                  rw [hdg0] at hdg'
                  injection hdg' with hdg'
                  exact hne' (hdg' ▸ hne0)
                | step hdg'' hne'' _ _ _ =>
                  rw [hdg0] at hdg''
                  injection hdg'' with hdg''
                  exact absurd (hdg'' ▸ hne0) hne''
              · exact ih rest visited evs' hrec htvrest hinj hinv' t u hreach (Or.inl hc)
            · exact ih rest visited evs' hrec htvrest hinj hinv' t u hreach (Or.inr hr)
        · rw [if_pos ⟨hne0, trivial⟩] at h
          by_cases hv0 : t0.id ∈ visited
          · rw [if_pos hv0] at h
            have hinv' : VisitedClosed dm tm visited rest := by
              intro v ds hval hvis hdgv hnev
              obtain ⟨dep_objs, hlk, hw⟩ := hinv v ds hval hvis hdgv hnev
              refine ⟨dep_objs, hlk, fun w hwmem => ?_⟩
              rcases hw w hwmem with hv | hv | hv
              · exact Or.inl hv
              · rcases List.mem_cons.mp hv with hc | hc
                · exact Or.inl (hc ▸ hv0)
                · exact Or.inr (Or.inl hc)
              · exact Or.inr (Or.inr hv)
            rcases hroot with hr | hr
            · rcases List.mem_cons.mp hr with hc | hc
              · subst hc
                exact ih rest visited evs h htvrest hinj hinv' t u hreach
                  (Or.inr ⟨htv0, hv0⟩)
              · exact ih rest visited evs h htvrest hinj hinv' t u hreach (Or.inl hc)
            · exact ih rest visited evs h htvrest hinj hinv' t u hreach (Or.inr hr)
          · rw [if_neg hv0] at h
            split at h
            next n hlk =>
              rw [Option.some.injEq, Prod.mk.injEq] at h
              exact absurd h.2 (by simp)
            next dep_objs hlk =>
              cases hrec : innerLoop dm tm false f (dep_objs.reverse ++ rest)
                  (t0.id :: visited) with
              | none => rw [hrec] at h; simp at h
              | some r =>
                obtain ⟨evs', out'⟩ := r
                rw [hrec] at h
                simp at h
                rw [h.2] at hrec
                have htv' : ∀ x ∈ dep_objs.reverse ++ rest, IsVal tm x := by
                  intro x hx
                  rcases List.mem_append.mp hx with hx | hx
                  · obtain ⟨nm, hnm⟩ := lookupTasks_mem hlk (List.mem_reverse.mp hx)
                    exact ⟨_, dictGet_mem hnm, rfl⟩
                  · exact htvrest x hx
                have hinv' : VisitedClosed dm tm (t0.id :: visited)
                    (dep_objs.reverse ++ rest) := by
                  intro v ds hval hvis hdgv hnev
                  rcases List.mem_cons.mp hvis with hc | hc
                  · have hvt0 : v = t0 := hinj v t0 hval htv0 hc
                    subst hvt0
                    rw [hdg0] at hdgv
                    injection hdgv with hdgv
                    subst hdgv
                    refine ⟨dep_objs, hlk, fun w hwmem => ?_⟩
                    exact Or.inr (Or.inl (List.mem_append.mpr
                      (Or.inl (List.mem_reverse.mpr hwmem))))
                  · obtain ⟨dep_objs', hlk', hw⟩ := hinv v ds hval hc hdgv hnev
                    refine ⟨dep_objs', hlk', fun w hwmem => ?_⟩
                    rcases hw w hwmem with hv | hv | hv
                    · exact Or.inl (List.mem_cons_of_mem _ hv)
                    · rcases List.mem_cons.mp hv with hc' | hc'
                      · exact Or.inl (hc' ▸ List.mem_cons_self _ _)
                      · exact Or.inr (Or.inl (List.mem_append.mpr (Or.inr hc')))
                    · exact Or.inr (Or.inr hv)
                rcases hroot with hr | hr
                · rcases List.mem_cons.mp hr with hc | hc
                  · subst hc
                    exact ih _ _ evs' hrec htv' hinj hinv' t u hreach
                      (Or.inr ⟨htv0, List.mem_cons_self _ _⟩)
                  · exact ih _ _ evs' hrec htv' hinj hinv' t u hreach
                      (Or.inl (List.mem_append.mpr (Or.inr hc)))
                · exact ih _ _ evs' hrec htv' hinj hinv' t u hreach
                    (Or.inr ⟨hr.1, List.mem_cons_of_mem _ hr.2⟩)
      case h_2 hdg0 =>
        cases hrec : innerLoop dm tm false f rest visited with
        | none => rw [hrec] at h; simp at h
        | some r =>
          obtain ⟨evs', out'⟩ := r
          rw [hrec] at h
          simp at h
          rw [h.2] at hrec
          have hinv' : VisitedClosed dm tm visited rest := by
            intro v ds hval hvis hdgv hnev
            obtain ⟨dep_objs, hlk, hw⟩ := hinv v ds hval hvis hdgv hnev
            refine ⟨dep_objs, hlk, fun w hwmem => ?_⟩
            rcases hw w hwmem with hv | hv | hv
            · exact Or.inl hv
            · rcases List.mem_cons.mp hv with hc | hc
              · exact Or.inr (Or.inr (hc ▸ Or.inl hdg0))
              · exact Or.inr (Or.inl hc)
            · exact Or.inr (Or.inr hv)
          rcases hroot with hr | hr
          · rcases List.mem_cons.mp hr with hc | hc
            · subst hc
              cases hreach with
              | refl =>
                intro hbad
                obtain ⟨ds', d', hdg', _, _, _⟩ := hbad
                rw [hdg0] at hdg'
                cases hdg'
              | step hdg'' _ _ _ _ =>
                rw [hdg0] at hdg''
                cases hdg''
            · exact ih rest visited evs' hrec htvrest hinj hinv' t u hreach (Or.inl hc)
          · exact ih rest visited evs' hrec htvrest hinj hinv' t u hreach (Or.inr hr)

/-- A non-aborting outer loop ran every traversal to completion: each
registered task whose name is in the effective requested list has a
successful inner run. -/
theorem outerLoop_success_inner (dm : List (Task × List String))
    (tm : List (String × Task)) (eff : List String) (nd : Bool) (fuel : Nat) :
    ∀ (tl : List (String × Task)) (evs : List Event),
      outerLoop dm tm eff nd fuel tl = some (evs, none) →
      ∀ (name : String) (t : Task), (name, t) ∈ tl → name ∈ eff →
        ∃ evs0, innerLoop dm tm nd fuel [t] [] = some (evs0, none) := by
  intro tl
  induction tl with
  | nil => intro evs _ name t hmem; simp at hmem
  | cons p rest ih =>
    intro evs h name t hmem heff
    obtain ⟨n', t'⟩ := p
    simp only [outerLoop] at h
    by_cases hm : n' ∈ eff
    · rw [if_pos hm] at h
      split at h
      next hres => simp at h
      next evs0 missing hres =>
        rw [Option.some.injEq, Prod.mk.injEq] at h
        exact absurd h.2 (by simp)
      next evs0 hres =>
        cases hrec : outerLoop dm tm eff nd fuel rest with
        | none => rw [hrec] at h; simp at h
        | some r =>
          obtain ⟨evs', out'⟩ := r
          rw [hrec] at h
          simp at h
          rcases List.mem_cons.mp hmem with hc | hc
          · injection hc with hc1 hc2
            rw [← hc2] at hres
            exact ⟨evs0, hres⟩
          · rw [h.2] at hrec
            exact ih evs' hrec name t hc heff
    · rw [if_neg hm] at h
      rcases List.mem_cons.mp hmem with hc | hc
      · injection hc with hc1 _
        exact absurd (hc1 ▸ heff) hm
      · exact ih evs h name t hc heff

/-! ### `runCmd`-level helpers -/

theorem runCmd_outer_isSome (m : MakeCLI) (requested : List String) (nd : Bool) :
    (outerLoop m.dependencies m.tasks (m.effectiveReq requested) nd m.runFuel
      m.tasks).isSome = true :=
  outerLoop_isSome _ _ _ _ _ (Nat.le_refl _) _

theorem runCmd_eq_abort (m : MakeCLI) (requested : List String) (nd : Bool)
    {evs : List Event} {n : String}
    (h : outerLoop m.dependencies m.tasks (m.effectiveReq requested) nd m.runFuel
      m.tasks = some (evs, some n)) :
    m.runCmd requested nd = (evs, some n) := by
  simp only [MakeCLI.runCmd, h]

theorem runCmd_eq_done (m : MakeCLI) (requested : List String) (nd : Bool)
    {evs : List Event}
    (h : outerLoop m.dependencies m.tasks (m.effectiveReq requested) nd m.runFuel
      m.tasks = some (evs, none)) :
    m.runCmd requested nd = (evs ++ [Event.executeAll], none) := by
  simp only [MakeCLI.runCmd, h]

theorem outerLoop_no_match (dm : List (Task × List String)) (tm : List (String × Task))
    (eff : List String) (nd : Bool) (fuel : Nat) :
    ∀ tl : List (String × Task), (∀ p ∈ tl, p.1 ∉ eff) →
      outerLoop dm tm eff nd fuel tl = some ([], none) := by
  intro tl
  induction tl with
  | nil => intro _; simp [outerLoop]
  | cons p rest ih =>
    intro hno
    obtain ⟨task_name, t⟩ := p
    simp only [outerLoop]
    rw [if_neg (hno (task_name, t) (List.mem_cons_self _ _))]
    exact ih fun q hq => hno q (List.mem_cons_of_mem _ hq)

/-! ## The claims -/

/-- Claim C2: with implied ordering enabled, after registering `A`, `B`, `C` in
that order with no explicit dependencies, requesting only `C` submits exactly
the edge set A→B, B→C (each `edgeList` pair is (upstream name, downstream
name)): the full run is `set_dependencies(C, [B])`, `set_dependencies(B, [A])`,
`add_task(A)`, then `flow.run()`, and its edge submissions are exactly
[(B, C), (A, B)], i.e. the set containing A→B and B→C and nothing else. -/
theorem C2_implied_order_transitive_closure :
    regImplied.runCmd ["C"] false =
      ([Event.edges ⟨2, "C"⟩ [⟨1, "B"⟩], Event.edges ⟨1, "B"⟩ [⟨0, "A"⟩],
        Event.standalone ⟨0, "A"⟩, Event.executeAll], none) ∧
    edgeList (regImplied.runCmd ["C"] false).1 = [("B", "C"), ("A", "B")] :=
  ⟨rfl, rfl⟩

/-- Claim C10: the `alredy_fetched_deps_for` guard is only consulted for tasks
whose dependency list is non-empty; the dependency-free task `Z` of
`regDiamond`, reachable from `A` through both `B` and `C`, is submitted
standalone once per pop, hence twice in a single resolution pass. -/
theorem C10_empty_deps_resubmitted :
    regDiamond.runCmd ["A"] false =
      ([Event.edges ⟨3, "A"⟩ [⟨1, "B"⟩, ⟨2, "C"⟩], Event.edges ⟨2, "C"⟩ [⟨0, "Z"⟩],
        Event.standalone ⟨0, "Z"⟩, Event.edges ⟨1, "B"⟩ [⟨0, "Z"⟩],
        Event.standalone ⟨0, "Z"⟩, Event.executeAll], none) ∧
    countStandaloneFor 0 (regDiamond.runCmd ["A"] false).1 = 2 :=
  ⟨rfl, rfl⟩

/-- Claim C6: requesting zero task names is the same run as requesting the
full list of registered task names: the `run` command replaces an empty
argument tuple by `obj.tasks.keys()` before doing anything else. -/
theorem C6_empty_request_equals_full (m : MakeCLI) (nd : Bool) :
    m.runCmd [] nd = m.runCmd (m.tasks.map Prod.fst) nd := by
  have heff : m.effectiveReq [] = m.effectiveReq (m.tasks.map Prod.fst) := by
    simp [MakeCLI.effectiveReq]
  simp only [MakeCLI.runCmd, heff]

/-- Claim C4: resolution always terminates, even on cyclic dependency maps:
the outer loop with the canonical step-count fuel always completes (never
runs out of fuel); within one outer iteration each task object's dependency
list is expanded (`set_dependencies` issued for it) at most once; and on the
two-cycle A↔B, requesting `A` terminates with the edge submission
`set_dependencies(A, [B])` (B upstream of A) occurring exactly once, with no
infinite re-expansion. -/
theorem C4_cycle_resolution_terminates :
    (∀ (m : MakeCLI) (requested : List String) (nd : Bool),
      (outerLoop m.dependencies m.tasks (m.effectiveReq requested) nd m.runFuel
        m.tasks).isSome = true) ∧
    (∀ (dm : List (Task × List String)) (tm : List (String × Task)) (nd : Bool)
      (fuel : Nat) (tv : List Task) (evs : List Event) (out : Option String),
      innerLoop dm tm nd fuel tv [] = some (evs, out) →
      ∀ i : Nat, countEdgesFor i evs ≤ 1) ∧
    regCycle.runCmd ["A"] false =
      ([Event.edges ⟨0, "A"⟩ [⟨1, "B"⟩], Event.edges ⟨1, "B"⟩ [⟨0, "A"⟩],
        Event.executeAll], none) ∧
    countEdgesFor 0 (regCycle.runCmd ["A"] false).1 = 1 := by
  refine ⟨fun m requested nd => runCmd_outer_isSome m requested nd,
    fun dm tm nd fuel tv evs out h i => ?_, rfl, rfl⟩
  have := innerLoop_edges_once dm tm nd fuel tv [] evs out h i
  simpa using this

/-- Claim C1, counterexample: in `regMissing` (`A` depends on `B`, `B` depends
on the never-registered `ghost`), requesting `A` aborts with the unresolved
reference `ghost`, but the edge submission `set_dependencies(A, [B])` has
already been issued to the external engine before the abort — submission is
not all-or-nothing, refuting the claim that no submission calls occur. -/
theorem C1_counterexample :
    (regMissing.runCmd ["A"] false).2 = some "ghost" ∧
    (regMissing.runCmd ["A"] false).1 = [Event.edges ⟨0, "A"⟩ [⟨1, "B"⟩]] ∧
    (regMissing.runCmd ["A"] false).1 ≠ [] :=
  ⟨rfl, rfl, by decide⟩

/-- Claim C3, counterexample: `regPlain` registers N = 2 tasks with no
dependencies and no implied ordering, yet requesting the subset `["A"]`
yields 1 standalone submission, not N = 2 — the count is not independent of
the requested subset. -/
theorem C3_counterexample :
    regPlain.tasks.length = 2 ∧
    countStandalone (regPlain.runCmd ["A"] false).1 = 1 ∧
    edgeList (regPlain.runCmd ["A"] false).1 = [] ∧
    ¬ countStandalone (regPlain.runCmd ["A"] false).1 = regPlain.tasks.length :=
  ⟨rfl, rfl, rfl, by decide⟩

theorem runFuel_succ (m : MakeCLI) : m.runFuel = depWeight m.dependencies [] + 1 := by
  simp [MakeCLI.runFuel, Nat.add_comm]

/-- Claim C5: with the `--no-dependencies` flag, every run submits exactly
one standalone `add_task` per registered task whose name is in the effective
requested list (in registry order), no edges, and then invokes `flow.run()`
— even when tasks have declared non-empty dependency lists. -/
theorem C5_no_dependencies_standalone (m : MakeCLI) (requested : List String) :
    m.runCmd requested true =
      ((m.tasks.filter fun p => decide (p.1 ∈ m.effectiveReq requested)).map
        (fun p => Event.standalone p.2) ++ [Event.executeAll], none) := by
  have hstep : ∀ t : Task,
      innerLoop m.dependencies m.tasks true (depWeight m.dependencies [] + 1) [t] [] =
        some ([Event.standalone t], none) := fun t =>
    innerLoop_single_standalone _ _ _ _ _ _ (Or.inl rfl)
  have houter := outerLoop_all_standalone m.dependencies m.tasks
    (m.effectiveReq requested) true (depWeight m.dependencies []) hstep m.tasks
  have houter' : outerLoop m.dependencies m.tasks (m.effectiveReq requested) true
      m.runFuel m.tasks =
      some ((m.tasks.filter fun p => decide (p.1 ∈ m.effectiveReq requested)).map
        (fun p => Event.standalone p.2), none) := by
    rw [runFuel_succ]
    exact houter
  exact runCmd_eq_done m requested true houter'

/-- Claim C3 (amended): when every recorded dependency list is empty, any run
submits exactly one standalone `add_task` per registered task whose name is
in the effective requested list — `k` standalone submissions where `k` is the
size of the requested-and-registered set (so `N` only when the request is
empty or covers all names), and zero edges. -/
theorem C3_standalone_count (m : MakeCLI) (requested : List String) (nd : Bool)
    (hdeps : ∀ p ∈ m.dependencies, p.2 = []) :
    m.runCmd requested nd =
      ((m.tasks.filter fun p => decide (p.1 ∈ m.effectiveReq requested)).map
        (fun p => Event.standalone p.2) ++ [Event.executeAll], none) := by
  have hstep : ∀ t : Task,
      innerLoop m.dependencies m.tasks nd (depWeight m.dependencies [] + 1) [t] [] =
        some ([Event.standalone t], none) := by
    intro t
    apply innerLoop_single_standalone
    cases hdg : dictGet t m.dependencies with
    | none => exact Or.inr (Or.inl rfl)
    | some ds =>
      have : ds = [] := hdeps (t, ds) (dictGet_mem hdg)
      rw [this]
      exact Or.inr (Or.inr rfl)
  have houter := outerLoop_all_standalone m.dependencies m.tasks
    (m.effectiveReq requested) nd (depWeight m.dependencies []) hstep m.tasks
  have houter' : outerLoop m.dependencies m.tasks (m.effectiveReq requested) nd
      m.runFuel m.tasks =
      some ((m.tasks.filter fun p => decide (p.1 ∈ m.effectiveReq requested)).map
        (fun p => Event.standalone p.2), none) := by
    rw [runFuel_succ]
    exact houter
  exact runCmd_eq_done m requested nd houter'

/-- Claim C3, witness: the amended statement evaluated on `regPlain` with the
requested subset `["A"]`: one standalone submission, no edges. -/
theorem C3_standalone_count_witness :
    regPlain.runCmd ["A"] false =
      ((regPlain.tasks.filter fun p => decide (p.1 ∈ regPlain.effectiveReq ["A"])).map
        (fun p => Event.standalone p.2) ++ [Event.executeAll], none) :=
  C3_standalone_count regPlain ["A"] false (by decide)

/-- Claim C9: a requested name that was never registered is silently skipped:
dropping it from a request that still contains something changes nothing
about the run, and requesting only the unregistered name yields no error and
no submissions while `flow.run()` is still invoked. -/
theorem C9_unregistered_request_ignored (m : MakeCLI) (requested : List String)
    (r : String) (nd : Bool) (hr : dictGet r m.tasks = none) :
    (requested.filter (fun s => decide (s ≠ r)) ≠ [] →
      m.runCmd requested nd = m.runCmd (requested.filter fun s => decide (s ≠ r)) nd) ∧
    (requested = [r] → m.runCmd requested nd = ([Event.executeAll], none)) := by
  have hkeys := dictGet_eq_none hr
  constructor
  · intro hne
    have hreqne : requested ≠ [] := by
      intro hc
      rw [hc] at hne
      simp at hne
    have hem : requested.isEmpty = false := by
      cases requested with
      | nil => exact absurd rfl hreqne
      | cons a l => rfl
    have hem' : (requested.filter fun s => decide (s ≠ r)).isEmpty = false := by
      cases hc : requested.filter fun s => decide (s ≠ r) with
      | nil => exact absurd hc hne
      | cons a l => rfl
    have heff1 : m.effectiveReq requested = requested := by
      unfold MakeCLI.effectiveReq
      rw [hem]
      simp
    have heff2 : m.effectiveReq (requested.filter fun s => decide (s ≠ r)) =
        requested.filter fun s => decide (s ≠ r) := by
      unfold MakeCLI.effectiveReq
      rw [hem']
      simp
    have hcong : outerLoop m.dependencies m.tasks requested nd m.runFuel m.tasks =
        outerLoop m.dependencies m.tasks (requested.filter fun s => decide (s ≠ r)) nd
          m.runFuel m.tasks := by
      apply outerLoop_congr
      intro p hp
      have hp1r : p.1 ≠ r := hkeys p hp
      constructor
      · intro hin
        exact List.mem_filter.mpr ⟨hin, by simp [hp1r]⟩
      · intro hin
        exact (List.mem_filter.mp hin).1
    simp only [MakeCLI.runCmd, heff1, heff2, hcong]
  · intro hreq
    subst hreq
    have heff : m.effectiveReq [r] = [r] := rfl
    have houter := outerLoop_no_match m.dependencies m.tasks [r] nd m.runFuel m.tasks
      (fun p hp => by simp [hkeys p hp])
    have houter' : outerLoop m.dependencies m.tasks (m.effectiveReq [r]) nd
        m.runFuel m.tasks = some ([], none) := by
      rw [heff]
      exact houter
    have := runCmd_eq_done m [r] nd houter'
    simpa using this

/-- Claim C9, witness: removing the unregistered name `ghost` from the
request `["A", "ghost"]` on a registry containing only `A` leaves the run
unchanged. -/
theorem C9_unregistered_request_ignored_witness :
    regSingle.runCmd ["A", "ghost"] false =
      regSingle.runCmd (["A", "ghost"].filter fun s => decide (s ≠ "ghost")) false :=
  (C9_unregistered_request_ignored regSingle ["A", "ghost"] "ghost" false
    (by decide)).1 (by decide)

/-- Claim C1 (amended): whenever a run aborts, the reported name is a
declared-but-never-registered task (an unresolved reference) and
`flow.run()` (`Event.executeAll`) is never invoked; and whenever any task
reachable through dependency expansion from a requested registered task —
including transitively reached tasks — declares an unregistered upstream
name (and dependencies are not suppressed), the run does abort.  However —
unlike the original claim — submission calls issued before the failing
lookup are not rolled back and may already have reached the external engine
(see the counterexample).  The task-identity-injectivity hypothesis of the
abort-forcing part holds for every registry built through `MakeCLI.task`,
which hands out a fresh object identity at each registration, and is
exercised by the concrete witness. -/
theorem C1_abort_semantics (m : MakeCLI) (requested : List String) (nd : Bool) :
    (∀ n, (m.runCmd requested nd).2 = some n →
      dictGet n m.tasks = none ∧ Event.executeAll ∉ (m.runCmd requested nd).1) ∧
    (∀ (name : String) (r t : Task) (ds : List String) (d : String),
      (∀ p ∈ m.tasks, ∀ q ∈ m.tasks, p.2.id = q.2.id → p.2 = q.2) →
      (name, r) ∈ m.tasks → name ∈ m.effectiveReq requested →
      Reaches m.dependencies m.tasks r t →
      dictGet t m.dependencies = some ds → ds ≠ [] → d ∈ ds →
      dictGet d m.tasks = none → nd = false →
      (m.runCmd requested nd).2 ≠ none) := by
  have hsome := runCmd_outer_isSome m requested nd
  constructor
  · intro n hn
    cases houter : outerLoop m.dependencies m.tasks (m.effectiveReq requested) nd
        m.runFuel m.tasks with
    | none => rw [houter] at hsome; simp at hsome
    | some res =>
      obtain ⟨evs, out⟩ := res
      have hs := outerLoop_sound _ _ _ _ _ _ _ _ houter
      cases out with
      | none =>
        have heq := runCmd_eq_done m requested nd houter
        rw [heq] at hn
        simp at hn
      | some n' =>
        have heq := runCmd_eq_abort m requested nd houter
        rw [heq] at hn
        simp at hn
        subst hn
        rw [heq]
        exact ⟨hs.2 _ rfl, hs.1⟩
  · intro name r t ds d hidinj hmem heff hreach hdg hne hd hdmiss hnd
    subst hnd
    intro hnone
    have hsome' := runCmd_outer_isSome m requested false
    cases houter : outerLoop m.dependencies m.tasks (m.effectiveReq requested) false
        m.runFuel m.tasks with
    | none => rw [houter] at hsome'; simp at hsome'
    | some res =>
      obtain ⟨evs, out⟩ := res
      cases out with
      | some miss =>
        rw [runCmd_eq_abort m requested false houter] at hnone
        simp at hnone
      | none =>
        obtain ⟨evs0, hinner⟩ := outerLoop_success_inner m.dependencies m.tasks
          (m.effectiveReq requested) false m.runFuel m.tasks evs houter name r hmem heff
        have hinj : ∀ x y, IsVal m.tasks x → IsVal m.tasks y → x.id = y.id → x = y := by
          intro x y hx hy hid
          obtain ⟨p, hp, hpx⟩ := hx
          obtain ⟨q, hq, hqx⟩ := hy
          rw [← hpx, ← hqx]
          exact hidinj p hp q hq (by rw [hpx, hqx, hid])
        refine innerLoop_success_no_missing m.dependencies m.tasks m.runFuel [r] []
          evs0 hinner ?_ hinj ?_ r t hreach (Or.inl (List.mem_cons_self _ _)) ?_
        · intro x hx
          rcases List.mem_cons.mp hx with hc | hc
          · exact hc ▸ ⟨(name, r), hmem, rfl⟩
          · simp at hc
        · intro v dsv _ hvis
          simp at hvis
        · exact ⟨ds, d, hdg, hne, hd, hdmiss⟩

/-- Claim C1, witness: the amended statement evaluated on `regMissing`:
requesting `A` aborts with the unresolved reference `ghost`, which is
unregistered and is declared by the transitively reached task `B` (not by
the requested `A` itself), and `flow.run()` is never invoked. -/
theorem C1_abort_semantics_witness :
    dictGet "ghost" regMissing.tasks = none ∧
    Event.executeAll ∉ (regMissing.runCmd ["A"] false).1 ∧
    (regMissing.runCmd ["A"] false).2 ≠ none := by
  have h1 := (C1_abort_semantics regMissing ["A"] false).1 "ghost" rfl
  have h2 := (C1_abort_semantics regMissing ["A"] false).2 "A" ⟨0, "A"⟩ ⟨1, "B"⟩
    ["ghost"] "ghost" (by decide) (by decide) (by decide)
    (@Reaches.step regMissing.dependencies regMissing.tasks ⟨0, "A"⟩ ⟨1, "B"⟩ ⟨1, "B"⟩
      ["B"] "B" (by decide) (by decide) (by decide) (by decide) (Reaches.refl _))
    rfl (by decide) (by decide) rfl rfl
  exact ⟨h1.1, h1.2, h2⟩

/-- Claim C7: registering a second task under an already-used name raises no
error and silently overwrites: the new task object is distinct from the old
one, the by-name registry maps the name to the new object only, the old
object is no longer a value of the by-name registry, and no run on the new
registry ever submits the old object to the external engine (it is no longer
eligible for resolution). -/
theorem C7_reregistration_overwrites (m : MakeCLI) (name : String)
    (d1 d2 : Option (List String)) (hWf : m.Wf) :
    ((m.task name d1).1.task name d2).2 ≠ (m.task name d1).2 ∧
    dictGet name ((m.task name d1).1.task name d2).1.tasks =
      some ((m.task name d1).1.task name d2).2 ∧
    (∀ p ∈ ((m.task name d1).1.task name d2).1.tasks, p.2 ≠ (m.task name d1).2) ∧
    (∀ (requested : List String) (nd : Bool) (e : Event),
      e ∈ (((m.task name d1).1.task name d2).1.runCmd requested nd).1 →
      ¬ e.mentions (m.task name d1).2) := by
  have ht1 : (m.task name d1).2 = ⟨m.nextId, name⟩ := rfl
  have ht2 : ((m.task name d1).1.task name d2).2 = ⟨m.nextId + 1, name⟩ := rfl
  have htasks2 : ((m.task name d1).1.task name d2).1.tasks =
      dictInsert name (⟨m.nextId + 1, name⟩ : Task)
        (dictInsert name (⟨m.nextId, name⟩ : Task) m.tasks) := rfl
  have hne12 : (⟨m.nextId + 1, name⟩ : Task) ≠ ⟨m.nextId, name⟩ := by
    intro hc
    injection hc with h1 _
    omega
  have hnodup1 : ((dictInsert name (⟨m.nextId, name⟩ : Task) m.tasks).map
      Prod.fst).Nodup := nodup_keys_dictInsert hWf.2.2
  have hvals : ∀ p ∈ ((m.task name d1).1.task name d2).1.tasks,
      p.2 ≠ (m.task name d1).2 := by
    intro p hp
    rw [htasks2] at hp
    rw [ht1]
    rcases mem_dictInsert_nodup hnodup1 hp with h | h
    · rw [h]
      exact hne12
    · rcases mem_dictInsert_nodup hWf.2.2 h.1 with h' | h'
      · exact absurd (by rw [h']) h.2
      · intro hc
        have hlt := hWf.1 p h'.1
        rw [hc] at hlt
        simp at hlt
  refine ⟨by rw [ht1, ht2]; exact hne12,
    by rw [htasks2]; exact dictGet_dictInsert_self _ _ _, hvals, ?_⟩
  intro requested nd e he hment
  have hsome := runCmd_outer_isSome ((m.task name d1).1.task name d2).1 requested nd
  cases houter : outerLoop ((m.task name d1).1.task name d2).1.dependencies
      ((m.task name d1).1.task name d2).1.tasks
      (((m.task name d1).1.task name d2).1.effectiveReq requested) nd
      ((m.task name d1).1.task name d2).1.runFuel
      ((m.task name d1).1.task name d2).1.tasks with
  | none => rw [houter] at hsome; simp at hsome
  | some res =>
    obtain ⟨evs, out⟩ := res
    have hmention := outerLoop_mentions _ _ _ _ _ _ _ _ houter
    cases out with
    | some miss =>
      rw [runCmd_eq_abort _ requested nd houter] at he
      rcases hmention e he _ hment with ⟨p, hp, hpx⟩ | ⟨nm, hnm⟩
      · exact hvals p hp hpx
      · exact hvals _ (dictGet_mem hnm) rfl
    | none =>
      rw [runCmd_eq_done _ requested nd houter] at he
      rcases List.mem_append.mp he with he | he
      · rcases hmention e he _ hment with ⟨p, hp, hpx⟩ | ⟨nm, hnm⟩
        · exact hvals p hp hpx
        · exact hvals _ (dictGet_mem hnm) rfl
      · simp at he
        subst he
        exact hment

/-- Claim C7, witness: re-registering the name `A` on the one-task registry
yields a new, distinct task object. -/
theorem C7_reregistration_overwrites_witness :
    ((regSingle.task "A" none).1.task "A" (some ["x"])).2 ≠
      (regSingle.task "A" none).2 :=
  (C7_reregistration_overwrites regSingle "A" none (some ["x"])
    ⟨by decide, by decide, by decide⟩).1

/-- Claim C8: when implied ordering is enabled, registration appends the most
recently registered task's name to the end of the new task's dependency list
— in addition to any explicitly declared dependencies — and appends nothing
when no task was registered before (`getLast?` of the registration order is
`none`). -/
theorem C8_implied_order_appends_previous (m : MakeCLI) (fnName : String)
    (depends : Option (List String)) (himp : m.implied_order = true) :
    dictGet (m.task fnName depends).2 (m.task fnName depends).1.dependencies =
      some (depends.getD [] ++ m.task_order.getLast?.toList) := by
  have h1 : dictGet (m.task fnName depends).2 (m.task fnName depends).1.dependencies =
      some (if m.implied_order then
          (match m.task_order.getLast? with
            | some prev => depends.getD [] ++ [prev]
            | none => depends.getD [])
        else depends.getD []) := dictGet_dictInsert_self _ _ _
  rw [h1, himp]
  cases hlast : m.task_order.getLast? with
  | none => simp
  | some prev => simp

/-- Claim C8, witness: registering `B` with explicit dependency `X` after `A`
in an implied-order registry records the dependency list `["X", "A"]`. -/
theorem C8_implied_order_appends_previous_witness :
    dictGet (((MakeCLI.init true).task "A" none).1.task "B" (some ["X"])).2
        (((MakeCLI.init true).task "A" none).1.task "B" (some ["X"])).1.dependencies =
      some ((some ["X"]).getD [] ++
        ((MakeCLI.init true).task "A" none).1.task_order.getLast?.toList) :=
  C8_implied_order_appends_previous (((MakeCLI.init true).task "A" none).1) "B"
    (some ["X"]) rfl

end MakeCli
